import Mathlib

/-
Verification development for the SurvivalNet repository.

The embedding covers:
  - src/survivalnet/analysis/RiskCluster.py : RiskCluster and
    ClusterAssociations (feature suffix classification, the mutation
    contingency-table chi-square path with numpy float semantics, the
    copy-number Kruskal-Wallis branches, and the significant-symbol split
    used for the annotation tracks);
  - src/examples/Run1.py : the per-shuffle dataset split of Run;
  - the risk-set construction calc_at_risk, whose source module
    (survivalnet.optimization.SurvivalAnalysis) is not part of the given
    sources and is therefore modelled from the specification.

External numeric collaborators (the scipy chi-square survival function,
kruskalwallis, linkage, fcluster, the Pearson correlation and the square
root used in z-score normalization, and the numpy argsort permutation)
are passed in as explicit function parameters, while every data movement
performed by the repository code itself is embedded concretely.
-/

set_option maxHeartbeats 1000000
set_option linter.unusedVariables false

namespace SNet

/-- A numpy floating value as it occurs in RiskCluster.py: NaN, a signed
infinity (true means positive), or a finite value represented exactly as a
rational. -/
inductive PyF where
  | nan : PyF
  | inf : Bool → PyF
  | val : ℚ → PyF
  deriving DecidableEq

namespace PyF

/-- IEEE negation. -/
def neg : PyF → PyF
  | nan => nan
  | inf s => inf (!s)
  | val a => val (-a)

/-- IEEE addition: NaN propagates, opposite infinities give NaN. -/
def add : PyF → PyF → PyF
  | nan, _ => nan
  | inf s, nan => nan
  | inf s, inf t => if s = t then inf s else nan
  | inf s, val _ => inf s
  | val _, nan => nan
  | val _, inf t => inf t
  | val a, val b => val (a + b)

/-- IEEE subtraction. -/
def sub (x y : PyF) : PyF := add x (neg y)

/-- IEEE multiplication: NaN propagates, zero times infinity gives NaN. -/
def mul : PyF → PyF → PyF
  | nan, _ => nan
  | inf s, nan => nan
  | inf s, inf t => inf (s == t)
  | inf s, val a => if a = 0 then nan else inf (s == decide (0 < a))
  | val _, nan => nan
  | val a, inf t => if a = 0 then nan else inf (t == decide (0 < a))
  | val a, val b => val (a * b)

/-- IEEE division as numpy performs it: NaN propagates, zero divided by
zero gives NaN, a nonzero finite value divided by zero gives a signed
infinity, a finite value divided by infinity gives zero. -/
def div : PyF → PyF → PyF
  | nan, _ => nan
  | inf s, nan => nan
  | inf _, inf _ => nan
  | inf s, val a => inf (s == decide (0 ≤ a))
  | val _, nan => nan
  | val _, inf _ => val 0
  | val a, val b =>
      if b = 0 then (if a = 0 then nan else inf (decide (0 < a))) else val (a / b)

/-- IEEE strict comparison: any comparison against NaN is false. -/
def lt : PyF → PyF → Bool
  | nan, _ => false
  | inf s, nan => false
  | inf s, inf t => !s && t
  | inf s, val _ => !s
  | val _, nan => false
  | val _, inf t => t
  | val a, val b => decide (a < b)

/-- IEEE equality test: NaN is equal to nothing, including itself. -/
def beq : PyF → PyF → Bool
  | val a, val b => a == b
  | inf s, inf t => s == t
  | _, _ => false

end PyF

/-- A feature symbol, kept as its list of characters. -/
abbrev Sym := List Char

/-- The text after the last underscore of a symbol, exactly as
RiskCluster.py line 237 computes it: Symbol[str.rfind(str(Symbol), chr(95))+1:].
When no underscore occurs, rfind yields -1 and the slice is the whole
symbol. -/
def suffixOf (s : Sym) : Sym := (s.reverse.takeWhile (fun c => c != '_')).reverse

/-- The mutation type tag compared against on line 240. -/
def mutTag : Sym := ['M', 'u', 't']

/-- The copy-number type tag compared against on line 241. -/
def cnvTag : Sym := ['C', 'N', 'V']

/-- Indices of the entries of a list satisfying a predicate, in ascending
order, starting from a given offset; the embedding of the
enumerate-and-filter comprehensions on lines 240 and 241. -/
def idxFilter (p : Sym → Bool) : ℕ → List Sym → List ℕ
  | _, [] => []
  | i, s :: rest => (if p s then [i] else []) ++ idxFilter p (i + 1) rest

/-- Line 240: indices whose symbol suffix is exactly Mut. -/
def mutationsOf (S : List Sym) : List ℕ :=
  idxFilter (fun s => decide (suffixOf s = mutTag)) 0 S

/-- Line 241: indices whose symbol suffix is exactly CNV. -/
def cnvsOf (S : List Sym) : List ℕ :=
  idxFilter (fun s => decide (suffixOf s = cnvTag)) 0 S

/-- The raw values of feature m over the samples whose cluster label
equals j: the embedding of Raw[Labels == j, m]. -/
def clusterVals (Raw : List (List PyF)) (Labels : List ℕ) (j m : ℕ) : List PyF :=
  ((Raw.zip Labels).filter (fun rl => rl.2 == j)).map (fun rl => rl.1.getD m PyF.nan)

/-- np.max(Labels), with 0 for the empty list. -/
def maxLabel (Labels : List ℕ) : ℕ := Labels.foldl max 0

/-- One cell of the observed contingency table on lines 249 and 250: the
number of samples in cluster j whose raw value for feature m equals r
under numpy float equality. -/
def obsCnt (Raw : List (List PyF)) (Labels : List ℕ) (r : ℚ) (j m : ℕ) : ℕ :=
  (clusterVals Raw Labels j m).countP (fun v => PyF.beq v (PyF.val r))

/-- Line 251 (RowSum in the code, summing over the two value rows): the
marginal of table column c, for clusters numbered c + 1. -/
def colMarg (Raw : List (List PyF)) (Labels : List ℕ) (m c : ℕ) : ℕ :=
  obsCnt Raw Labels 0 (c + 1) m + obsCnt Raw Labels 1 (c + 1) m

/-- Line 252 (ColSum in the code, summing over the cluster columns): the
marginal of table row r, where r is the raw value 0 or 1. -/
def rowMarg (Raw : List (List PyF)) (Labels : List ℕ) (m : ℕ) (r : ℚ) : ℕ :=
  ((List.range (maxLabel Labels)).map (fun c => obsCnt Raw Labels r (c + 1) m)).sum

/-- The grand total of the observed table. -/
def tableTotal (Raw : List (List PyF)) (Labels : List ℕ) (m : ℕ) : ℕ :=
  rowMarg Raw Labels m 0 + rowMarg Raw Labels m 1

/-- Line 253: Expected = np.outer(ColSum, RowSum) / np.sum(Observed),
entry at value row r and cluster column c, in numpy float arithmetic. -/
def expectedAt (Raw : List (List PyF)) (Labels : List ℕ) (m : ℕ) (r : ℚ) (c : ℕ) : PyF :=
  PyF.div (PyF.val ((rowMarg Raw Labels m r : ℚ) * (colMarg Raw Labels m c : ℚ)))
    (PyF.val ((tableTotal Raw Labels m : ℚ)))

/-- One term of the scipy chisquare statistic: (obs - exp) squared over exp. -/
def chiTerm (o e : PyF) : PyF := PyF.div (PyF.mul (PyF.sub o e) (PyF.sub o e)) e

/-- The row-major cell coordinates of the flattened 2 by K table, as
scipy chisquare with axis=None traverses them. -/
def chiCells (K : ℕ) : List (ℚ × ℕ) :=
  [(0 : ℚ), 1].flatMap (fun r => (List.range K).map (fun c => (r, c)))

/-- The scipy chisquare statistic for mutation feature m on line 256: the
sum of (Observed - Expected) squared over Expected across all cells, in
numpy float arithmetic. -/
def chiStat (Raw : List (List PyF)) (Labels : List ℕ) (m : ℕ) : PyF :=
  ((chiCells (maxLabel Labels)).map (fun rc =>
    chiTerm (PyF.val ((obsCnt Raw Labels rc.1 (rc.2 + 1) m : ℚ)))
      (expectedAt Raw Labels m rc.1 rc.2))).foldl PyF.add (PyF.val 0)

/-- scipy chisquare degrees of freedom with ddof=1 over 2K flattened
observations: 2K - 1 - 1. -/
def dofOf (K : ℕ) : ℕ := 2 * K - 2

/-- The p-value of the chi-square test, given the survival function sf of
the chi-squared distribution on finite statistics (an external scipy
collaborator): a NaN statistic gives a NaN p-value, positive infinity
gives 0 and negative infinity gives 1, matching chi2.sf. -/
def sfPv (sf : ℚ → ℕ → ℚ) (stat : PyF) (dof : ℕ) : PyF :=
  match stat with
  | PyF.nan => PyF.nan
  | PyF.inf s => if s then PyF.val 0 else PyF.val 1
  | PyF.val q => PyF.val (sf q dof)

/-- The p-value produced for mutation feature m on line 256. -/
def mutPValue (Raw : List (List PyF)) (Labels : List ℕ) (sf : ℚ → ℕ → ℚ) (m : ℕ) : PyF :=
  sfPv sf (chiStat Raw Labels m) (dofOf (maxLabel Labels))

/-- The significance decision p < Tau of lines 257 and 286, under numpy
float comparison, so a NaN p-value is never significant. -/
def sigTest (pv : PyF) (Tau : ℚ) : Bool := PyF.lt pv (PyF.val Tau)

/-- The loop state of ClusterAssociations: the current value of the local
variable p (none before any test has assigned it) and the accumulated
Significant list. -/
structure CAState where
  pOpt : Option PyF
  sig : List Sym

/-- One iteration of the mutation loop, lines 244 to 258: compute the
chi-square p-value, store it in p, and append the symbol when p < Tau. -/
def mutStep (Raw : List (List PyF)) (Labels : List ℕ) (sf : ℚ → ℕ → ℚ) (Tau : ℚ)
    (S : List Sym) (st : CAState) (m : ℕ) : CAState :=
  let pv := mutPValue Raw Labels sf m
  { pOpt := some pv,
    sig := st.sig ++ (if sigTest pv Tau then [S.getD m []] else []) }

/-- The per-cluster groups passed to kruskalwallis for CNV feature c. -/
def kwGroups (Raw : List (List PyF)) (Labels : List ℕ) (c : ℕ) : List (List PyF) :=
  (List.range (maxLabel Labels)).map (fun j => clusterVals Raw Labels (j + 1) c)

/-- One iteration of the copy-number loop, lines 261 to 287: when
np.max(Labels) is 2, 3, 4 or 5 the Kruskal-Wallis test assigns p;
otherwise p keeps its previous value. The subsequent comparison p < Tau
raises a NameError (modelled as an error result) when p was never
assigned, and otherwise appends the symbol whenever the current, possibly
stale, p is below Tau. -/
def cnvStep (Raw : List (List PyF)) (Labels : List ℕ) (kw : List (List PyF) → PyF)
    (Tau : ℚ) (S : List Sym) (st : CAState) (c : ℕ) : Except Unit CAState :=
  match (if maxLabel Labels = 2 ∨ maxLabel Labels = 3 ∨ maxLabel Labels = 4 ∨
           maxLabel Labels = 5
         then some (kw (kwGroups Raw Labels c)) else st.pOpt) with
  | none => Except.error ()
  | some pv =>
      Except.ok { pOpt := some pv,
                  sig := st.sig ++ (if sigTest pv Tau then [S.getD c []] else []) }

/-- ClusterAssociations, lines 193 to 290: classify features by symbol
suffix, run the mutation chi-square loop and then the copy-number loop,
and return the Significant list; an error result models the NameError
raised when the copy-number loop reads p before any assignment. -/
def ClusterAssociations (Raw : List (List PyF)) (S : List Sym) (Labels : List ℕ)
    (Tau : ℚ) (sf : ℚ → ℕ → ℚ) (kw : List (List PyF) → PyF) : Except Unit (List Sym) :=
  ((cnvsOf S).foldlM (cnvStep Raw Labels kw Tau S)
    ((mutationsOf S).foldl (mutStep Raw Labels sf Tau S) { pOpt := none, sig := [] })).map
      CAState.sig

/-- The whitespace characters stripped by the Python str.strip method in
its ASCII range. -/
def pySpace (c : Char) : Bool :=
  c == ' ' || c == '\t' || c == '\n' || c == '\r' || c == '\x0b' || c == '\x0c'

/-- Python Symbol.strip(): whitespace removed from both ends. -/
def pyStrip (s : Sym) : Sym :=
  ((s.dropWhile pySpace).reverse.dropWhile pySpace).reverse

/-- Python s[-4:]: the last four characters, or the whole string when it
is shorter. -/
def lastFour (s : Sym) : Sym := s.drop (s.length - 4)

/-- The four-character tag compared on line 146. -/
def mutTag4 : Sym := ['_', 'M', 'u', 't']

/-- The four-character tag compared on line 153. -/
def cnvTag4 : Sym := ['_', 'C', 'N', 'V']

/-- Lines 145 and 146 of RiskCluster: the significant symbols whose
stripped text ends in the mutation tag. -/
def sigMutOf (Significant : List Sym) : List Sym :=
  Significant.filter (fun s => decide (lastFour (pyStrip s) = mutTag4))

/-- Lines 152 and 153 of RiskCluster: the significant symbols whose
stripped text ends in the copy-number tag. -/
def sigCNVOf (Significant : List Sym) : List Sym :=
  Significant.filter (fun s => decide (lastFour (pyStrip s) = cnvTag4))

/-- The n by n at-risk indicator built from the time vector: entry (i, j)
is 1 exactly when sample j has a strictly later time than sample i. -/
def atRiskMatrix (T : List ℚ) : List (List ℕ) :=
  T.map (fun ti => T.map (fun tj => if ti < tj then 1 else 0))

/-- Modelled from the spec: the module defining
survivalnet.optimization.SurvivalAnalysis.calc_at_risk is not among the
given sources (Run1.py only calls it), so it is taken from spec section
4.1: BuildRiskSet(X, T, O) returns X, T and O together with the n by n
boolean matrix A with A[i][j] = 1 if T[j] > T[i], else 0. -/
def calc_at_risk (X : List (List ℚ)) (T : List ℚ) (O : List ℤ) :
    List (List ℚ) × List ℚ × List ℤ × List (List ℕ) :=
  (X, T, O, atRiskMatrix T)

/-- Run1.py line 101: fold_size = int(20 * len(X) / 100), which is the
floor for a nonnegative length. -/
def foldSize (n : ℕ) : ℕ := 20 * n / 100

/-- Application of a numpy fancy-index permutation: X[order]. -/
def applyOrder (ord : List ℕ) (l : List α) (d : α) : List α :=
  ord.map (fun k => l.getD k d)

/-- One shuffle iteration of Run (Run1.py lines 88 to 121): permute X, T
and O by the same order, then build the train set from rows from
2 * fold_size on, the test set from the first fold_size rows, and the
validation set from rows fold_size to 2 * fold_size, each passed through
calc_at_risk. The triple is returned in the order the code computes it:
train, test, validation. -/
def runShuffle (X : List (List ℚ)) (T : List ℚ) (O : List ℤ) (ord : List ℕ) :
    (List (List ℚ) × List ℚ × List ℤ × List (List ℕ)) ×
    (List (List ℚ) × List ℚ × List ℤ × List (List ℕ)) ×
    (List (List ℚ) × List ℚ × List ℤ × List (List ℕ)) :=
  (calc_at_risk ((applyOrder ord X []).drop (2 * foldSize (applyOrder ord X []).length))
     ((applyOrder ord T 0).drop (2 * foldSize (applyOrder ord X []).length))
     ((applyOrder ord O 0).drop (2 * foldSize (applyOrder ord X []).length)),
   calc_at_risk ((applyOrder ord X []).take (foldSize (applyOrder ord X []).length))
     ((applyOrder ord T 0).take (foldSize (applyOrder ord X []).length))
     ((applyOrder ord O 0).take (foldSize (applyOrder ord X []).length)),
   calc_at_risk
     (((applyOrder ord X []).drop (foldSize (applyOrder ord X []).length)).take
       (foldSize (applyOrder ord X []).length))
     (((applyOrder ord T 0).drop (foldSize (applyOrder ord X []).length)).take
       (foldSize (applyOrder ord X []).length))
     (((applyOrder ord O 0).drop (foldSize (applyOrder ord X []).length)).take
       (foldSize (applyOrder ord X []).length)))

/-- Column mean of a matrix given as an entry function with n rows. -/
def colMeanQ (n : ℕ) (col : ℕ → ℚ) : ℚ := (∑ i ∈ Finset.range n, col i) / (n : ℚ)

/-- Column variance (np.std squared, with zero delta degrees of freedom). -/
def colVarQ (n : ℕ) (col : ℕ → ℚ) : ℚ :=
  (∑ i ∈ Finset.range n, (col i - colMeanQ n col) ^ 2) / (n : ℚ)

/-- RiskCluster.py line 77: the scores -np.abs(np.mean(Gradients, axis=0))
whose argsort gives the feature order. -/
def negAbsMeanScores (G : ℕ → ℕ → ℚ) (n p : ℕ) : List ℚ :=
  (List.range p).map (fun c => -|colMeanQ n (fun i => G i c)|)

/-- The selected top feature column for position k: Order[0:N] applied to
the gradient columns, where argsortFn models np.argsort. -/
def topCols (argsortFn : List ℚ → List ℕ) (G : ℕ → ℕ → ℚ) (n p N : ℕ) : List ℕ :=
  (argsortFn (negAbsMeanScores G n p)).take N

/-- Lines 80 to 82: the z-score normalized submatrix entry for sample i
and selected-column position k; sqrtFn models the square root inside
np.std. -/
def zscored (sqrtFn : ℚ → ℚ) (G : ℕ → ℕ → ℚ) (cols : List ℕ) (n : ℕ) (i k : ℕ) : ℚ :=
  (G i (cols.getD k 0) - colMeanQ n (fun a => G a (cols.getD k 0))) /
    sqrtFn (colVarQ n (fun a => G a (cols.getD k 0)))

/-- The normalized feature vector of sample i, over the N selected
columns; after the transposition on line 85 these are the columns of
Normalized and the observation rows handed to pdist on line 91. -/
def sampleRowN (Z : ℕ → ℕ → ℚ) (N i : ℕ) : List ℚ :=
  (List.range N).map (fun k => Z i k)

/-- The correlation distance between samples i and j: 1 minus the Pearson
correlation of their normalized feature vectors; pearsonFn models the
scipy correlation kernel. -/
def corrD (pearsonFn : List ℚ → List ℚ → ℚ) (Z : ℕ → ℕ → ℚ) (N i j : ℕ) : ℚ :=
  1 - pearsonFn (sampleRowN Z N i) (sampleRowN Z N j)

/-- The condensed distance vector produced by scipy pdist over n
observations: distances d i j for i < j, ordered with i ascending and,
within each i, j ascending. -/
def condensedOf (n : ℕ) (d : ℕ → ℕ → ℚ) : List ℚ :=
  (List.range n).flatMap (fun i => (List.range (n - 1 - i)).map (fun k => d i (i + 1 + k)))

/-- The index of pair (i, j), i < j, inside the condensed vector of n
observations. -/
def condIdx : ℕ → ℕ → ℕ → ℕ
  | _, 0, j => j - 1
  | n, i + 1, j => (n - 1) + condIdx (n - 1) i (j - 1)

/-- scipy squareform of a condensed vector: zero diagonal and the
condensed entry of the sorted pair off the diagonal. -/
def squareAt (n : ℕ) (c : List ℚ) (i j : ℕ) : ℚ :=
  if i = j then 0 else if i < j then c.getD (condIdx n i j) 0 else c.getD (condIdx n j i) 0

/-- One merge row of a scipy linkage matrix: the two merged cluster ids,
the merge distance (column 2, the one the threshold reads), and the size
of the new cluster. -/
structure LinkRow where
  idA : ℚ
  idB : ℚ
  dist : ℚ
  size : ℚ

/-- Python max over a list of rationals; the empty case never occurs in
the code paths considered (max of an empty sequence raises). -/
def pyMaxQ : List ℚ → ℚ
  | [] => 0
  | x :: xs => xs.foldl max x

/-- The sample distance matrix handed to linkage on line 93: the
squareform of the condensed correlation distances between the sample
vectors of the normalized top-N submatrix. -/
def sampleSquare (argsortFn : List ℚ → List ℕ) (sqrtFn : ℚ → ℚ)
    (pearsonFn : List ℚ → List ℚ → ℚ) (G : ℕ → ℕ → ℚ) (n p N : ℕ) (i j : ℕ) : ℚ :=
  squareAt n
    (condensedOf n (corrD pearsonFn (zscored sqrtFn G (topCols argsortFn G n p N) n) N)) i j

/-- Lines 77 to 96 of RiskCluster: the sample cluster labels, obtained by
cutting the average linkage of the sample distance structure at 0.7 times
the maximal merge distance; linkageFn and fclusterFn model the scipy
hierarchy collaborators. -/
def riskClusterLabels (argsortFn : List ℚ → List ℕ) (sqrtFn : ℚ → ℚ)
    (pearsonFn : List ℚ → List ℚ → ℚ)
    (linkageFn : (ℕ → ℕ → ℚ) → ℕ → List LinkRow)
    (fclusterFn : List LinkRow → ℚ → List ℕ)
    (G : ℕ → ℕ → ℚ) (n p N : ℕ) : List ℕ :=
  fclusterFn (linkageFn (sampleSquare argsortFn sqrtFn pearsonFn G n p N) n)
    ((7 / 10 : ℚ) *
      pyMaxQ ((linkageFn (sampleSquare argsortFn sqrtFn pearsonFn G n p N) n).map
        LinkRow.dist))

/-! Helper lemmas about the float embedding. -/

theorem PyF.add_nan_right (x : PyF) : PyF.add x PyF.nan = PyF.nan := by
  cases x <;> rfl

theorem PyF.add_nan_left (x : PyF) : PyF.add PyF.nan x = PyF.nan := rfl

theorem foldl_add_from_nan (l : List PyF) : l.foldl PyF.add PyF.nan = PyF.nan := by
  induction l with
  | nil => rfl
  | cons x xs ih =>
      rw [List.foldl_cons, PyF.add_nan_left]
      exact ih

theorem foldl_add_eq_nan_of_mem {l : List PyF} (h : PyF.nan ∈ l) (init : PyF) :
    l.foldl PyF.add init = PyF.nan := by
  induction l generalizing init with
  | nil => cases h
  | cons x xs ih =>
      rcases List.mem_cons.mp h with h1 | h2
      · rw [← h1, List.foldl_cons, PyF.add_nan_right]
        exact foldl_add_from_nan xs
      · exact ih h2 _

/-! Helper lemmas about the suffix computation. -/

theorem takeWhile_append_stop {α : Type} {p : α → Bool} {l₁ l₂ : List α} {c : α}
    (h₁ : ∀ x ∈ l₁, p x = true) (hc : p c = false) :
    (l₁ ++ c :: l₂).takeWhile p = l₁ := by
  induction l₁ with
  | nil => simp [List.takeWhile_cons, hc]
  | cons a l ih =>
      have ha := h₁ a (List.mem_cons_self a l)
      simp only [List.cons_append, List.takeWhile_cons, ha, if_true]
      rw [ih (fun x hx => h₁ x (List.mem_cons_of_mem a hx))]

theorem dropWhile_head_false {α : Type} {p : α → Bool} :
    ∀ {l : List α} {c : α} {rest : List α}, l.dropWhile p = c :: rest → p c = false := by
  intro l
  induction l with
  | nil => intro c rest h; cases h
  | cons a l ih =>
      intro c rest h
      by_cases ha : p a
      · rw [List.dropWhile_cons, if_pos ha] at h
        exact ih h
      · rw [List.dropWhile_cons, if_neg ha] at h
        cases h
        simpa using ha

/-- Characterization of the rfind-based suffix computation: a symbol has
suffix equal to an underscore-free tag exactly when it ends in an
underscore followed by the tag, or is the bare tag with no underscore at
all (because rfind returns -1 and the slice keeps the whole symbol). -/
theorem suffixOf_eq_iff {s tag : Sym} (htag : '_' ∉ tag) :
    suffixOf s = tag ↔ (∃ t, s = t ++ '_' :: tag) ∨ (s = tag ∧ '_' ∉ s) := by
  have hq : ∀ x : Char, (x != '_') = true ↔ x ≠ '_' := by
    intro x; simp [bne_iff_ne]
  constructor
  · intro h
    have hsplit := List.takeWhile_append_dropWhile (p := fun c => c != '_') (l := s.reverse)
    cases hdrop : s.reverse.dropWhile (fun c => c != '_') with
    | nil =>
        right
        rw [hdrop, List.append_nil] at hsplit
        have hs : s = tag := by
          have := congrArg List.reverse hsplit
          rw [List.reverse_reverse] at this
          rw [← this]
          exact h
        refine ⟨hs, ?_⟩
        intro hmem
        have hmem2 : '_' ∈ s.reverse := List.mem_reverse.mpr hmem
        rw [← hsplit] at hmem2
        have := List.mem_takeWhile_imp hmem2
        simp at this
    | cons c rest =>
        left
        have hc : (c != '_') = false :=
          dropWhile_head_false (p := fun c => c != '_') hdrop
        have hc2 : c = '_' := by simpa using hc
        rw [hdrop, hc2] at hsplit
        refine ⟨rest.reverse, ?_⟩
        have := congrArg List.reverse hsplit
        rw [List.reverse_reverse, List.reverse_append, List.reverse_cons,
          List.append_assoc] at this
        rw [← this, ← h]
        simp [suffixOf]
  · rintro (⟨t, rfl⟩ | ⟨rfl, hs⟩)
    · unfold suffixOf
      have hrev : (t ++ '_' :: tag).reverse = tag.reverse ++ '_' :: t.reverse := by
        rw [List.reverse_append, List.reverse_cons, List.append_assoc]
        rfl
      rw [hrev, takeWhile_append_stop (fun x hx => ?_) (by simp), List.reverse_reverse]
      exact (hq x).mpr (fun he => htag (by rw [← he]; exact List.mem_reverse.mp hx))
    · unfold suffixOf
      rw [List.takeWhile_eq_self_iff.mpr (fun x hx => ?_), List.reverse_reverse]
      exact (hq x).mpr (fun he => hs (by rw [← he]; exact List.mem_reverse.mp hx))

/-! Helper lemma about index filtering. -/

theorem idxFilter_mem (p : Sym → Bool) :
    ∀ (S : List Sym) (i m : ℕ),
      m ∈ idxFilter p i S ↔ ∃ k, k < S.length ∧ m = i + k ∧ p (S.getD k []) = true := by
  intro S
  induction S with
  | nil => intro i m; simp [idxFilter]
  | cons s S ih =>
      intro i m
      simp only [idxFilter, List.mem_append, ih (i + 1)]
      constructor
      · rintro (h | ⟨k, hk, rfl, hp⟩)
        · by_cases hps : p s
          · simp only [if_pos hps, List.mem_singleton] at h
            exact ⟨0, by simp, by omega, by simpa [h] using hps⟩
          · simp [if_neg hps] at h
        · exact ⟨k + 1, by simpa using hk, by omega, by simpa using hp⟩
      · rintro ⟨k, hk, rfl, hp⟩
        cases k with
        | zero =>
            left
            simp only [List.getD_cons_zero] at hp
            simp [hp]
        | succ k =>
            right
            refine ⟨k, by simpa using hk, by omega, ?_⟩
            simpa using hp

/-! Helper lemmas evaluating the chi-square pipeline on finite values. -/

theorem chiTerm_val (o e : ℚ) (he : e ≠ 0) :
    chiTerm (PyF.val o) (PyF.val e) = PyF.val ((o - e) * (o - e) / e) := by
  show PyF.div (PyF.val ((o + -e) * (o + -e))) (PyF.val e) = _
  simp only [PyF.div, if_neg he]
  ring_nf

theorem expectedAt_val (Raw : List (List PyF)) (Labels : List ℕ) (m : ℕ) (r : ℚ) (c : ℕ)
    (hT : ((tableTotal Raw Labels m : ℕ) : ℚ) ≠ 0) :
    expectedAt Raw Labels m r c =
      PyF.val ((rowMarg Raw Labels m r : ℚ) * (colMarg Raw Labels m c : ℚ) /
        ((tableTotal Raw Labels m : ℕ) : ℚ)) := by
  unfold expectedAt
  simp only [PyF.div, if_neg hT]

theorem foldl_add_all_val {l : List PyF} (h : ∀ x ∈ l, ∃ q, x = PyF.val q) :
    ∀ a : ℚ, ∃ q, l.foldl PyF.add (PyF.val a) = PyF.val q := by
  induction l with
  | nil => intro a; exact ⟨a, rfl⟩
  | cons x xs ih =>
      intro a
      obtain ⟨qx, hx⟩ := h x (List.mem_cons_self x xs)
      rw [List.foldl_cons, hx]
      exact ih (fun y hy => h y (List.mem_cons_of_mem x hy)) (a + qx)

theorem chiCells_mem_shape {rc : ℚ × ℕ} {K : ℕ} (h : rc ∈ chiCells K) :
    (rc.1 = 0 ∨ rc.1 = 1) ∧ rc.2 < K := by
  unfold chiCells at h
  rw [List.mem_flatMap] at h
  obtain ⟨r, hr, hmap⟩ := h
  rw [List.mem_map] at hmap
  obtain ⟨c, hc, rfl⟩ := hmap
  rw [List.mem_range] at hc
  refine ⟨?_, hc⟩
  rcases List.mem_cons.mp hr with h0 | h1
  · exact Or.inl h0
  · exact Or.inr (by simpa using h1)

theorem chiCells_mem_of (r : ℚ) (c : ℕ) {K : ℕ} (hr : r = 0 ∨ r = 1) (hc : c < K) :
    (r, c) ∈ chiCells K := by
  simp only [chiCells, List.mem_flatMap, List.mem_map]
  refine ⟨r, ?_, c, List.mem_range.mpr hc, rfl⟩
  rcases hr with h | h <;> simp [h]

/-- When every marginal of the mutation table is nonzero, the chi-square
statistic is a finite value. -/
theorem chiStat_isVal (Raw : List (List PyF)) (Labels : List ℕ) (m : ℕ)
    (hr0 : rowMarg Raw Labels m 0 ≠ 0) (hr1 : rowMarg Raw Labels m 1 ≠ 0)
    (hc : ∀ c, c < maxLabel Labels → colMarg Raw Labels m c ≠ 0) :
    ∃ q, chiStat Raw Labels m = PyF.val q := by
  unfold chiStat
  apply foldl_add_all_val
  intro x hx
  obtain ⟨rc, hrc, rfl⟩ := List.mem_map.mp hx
  obtain ⟨hr, hcK⟩ := chiCells_mem_shape hrc
  have htot : tableTotal Raw Labels m ≠ 0 := by
    unfold tableTotal; omega
  have htotQ : ((tableTotal Raw Labels m : ℕ) : ℚ) ≠ 0 := Nat.cast_ne_zero.mpr htot
  have hrm : rowMarg Raw Labels m rc.1 ≠ 0 := by
    rcases hr with h | h <;> rw [h] <;> assumption
  have hcm : colMarg Raw Labels m rc.2 ≠ 0 := hc rc.2 hcK
  have he : ((rowMarg Raw Labels m rc.1 : ℚ) * (colMarg Raw Labels m rc.2 : ℚ) /
      ((tableTotal Raw Labels m : ℕ) : ℚ)) ≠ 0 :=
    div_ne_zero (mul_ne_zero (Nat.cast_ne_zero.mpr hrm) (Nat.cast_ne_zero.mpr hcm)) htotQ
  rw [expectedAt_val Raw Labels m rc.1 rc.2 htotQ, chiTerm_val _ _ he]
  exact ⟨_, rfl⟩

/-- With a constant p-value oracle, a finite statistic makes the reported
mutation p-value that constant. -/
theorem mutPValue_const (Raw : List (List PyF)) (Labels : List ℕ) (m : ℕ) (c : ℚ)
    (h : ∃ q, chiStat Raw Labels m = PyF.val q) :
    mutPValue Raw Labels (fun _ _ => c) m = PyF.val c := by
  obtain ⟨q, hq⟩ := h
  unfold mutPValue
  rw [hq]
  rfl

/-! Claim C1. -/

theorem atRisk_entry (T : List ℚ) (i j : ℕ) (hi : i < T.length) (hj : j < T.length) :
    ((atRiskMatrix T).getD i []).getD j 0 = if T.getD i 0 < T.getD j 0 then 1 else 0 := by
  have hTi : T[i]? = some T[i] := List.getElem?_eq_getElem hi
  have hTj : T[j]? = some T[j] := List.getElem?_eq_getElem hj
  simp [atRiskMatrix, List.getD_eq_getElem?_getD, List.getElem?_map, hTi, hTj]

/-- C1: the risk-set construction returns an A with A[i][j] = 1 exactly
when T[j] > T[i]; the diagonal is 0, and tied times give 0 in both
directions. The defining module is not among the given sources, so
calc_at_risk is modelled from the spec. -/
theorem claim1_risk_set (X : List (List ℚ)) (T : List ℚ) (O : List ℤ) (i j : ℕ)
    (hi : i < T.length) (hj : j < T.length) :
    ((((calc_at_risk X T O).2.2.2).getD i []).getD j 0 = 1 ↔ T.getD i 0 < T.getD j 0) ∧
    (((calc_at_risk X T O).2.2.2).getD i []).getD i 0 = 0 ∧
    (T.getD i 0 = T.getD j 0 →
      (((calc_at_risk X T O).2.2.2).getD i []).getD j 0 = 0 ∧
      (((calc_at_risk X T O).2.2.2).getD j []).getD i 0 = 0) := by
  have hij := atRisk_entry T i j hi hj
  have hii := atRisk_entry T i i hi hi
  have hji := atRisk_entry T j i hj hi
  refine ⟨?_, ?_, ?_⟩
  · show ((atRiskMatrix T).getD i []).getD j 0 = 1 ↔ _
    rw [hij]
    by_cases h : T.getD i 0 < T.getD j 0 <;> simp [h]
  · show ((atRiskMatrix T).getD i []).getD i 0 = 0
    rw [hii, if_neg (lt_irrefl _)]
  · intro htie
    constructor
    · show ((atRiskMatrix T).getD i []).getD j 0 = 0
      rw [hij, htie, if_neg (lt_irrefl _)]
    · show ((atRiskMatrix T).getD j []).getD i 0 = 0
      rw [hji, htie, if_neg (lt_irrefl _)]

/-- C1 witness: the theorem applied to T = [1, 2, 2] at i = 1, j = 2,
where the two times tie. -/
theorem claim1_risk_set_witness :
    (1 : ℕ) < ([(1 : ℚ), 2, 2] : List ℚ).length ∧
    (2 : ℕ) < ([(1 : ℚ), 2, 2] : List ℚ).length ∧
    (((((calc_at_risk [] [(1 : ℚ), 2, 2] []).2.2.2).getD 1 []).getD 2 0 = 1 ↔
        ([(1 : ℚ), 2, 2] : List ℚ).getD 1 0 < ([(1 : ℚ), 2, 2] : List ℚ).getD 2 0) ∧
      ((((calc_at_risk [] [(1 : ℚ), 2, 2] []).2.2.2).getD 1 []).getD 1 0 = 0) ∧
      (([(1 : ℚ), 2, 2] : List ℚ).getD 1 0 = ([(1 : ℚ), 2, 2] : List ℚ).getD 2 0 →
        (((calc_at_risk [] [(1 : ℚ), 2, 2] []).2.2.2).getD 1 []).getD 2 0 = 0 ∧
        (((calc_at_risk [] [(1 : ℚ), 2, 2] []).2.2.2).getD 2 []).getD 1 0 = 0)) :=
  ⟨by decide, by decide, claim1_risk_set [] [(1 : ℚ), 2, 2] [] 1 2 (by decide) (by decide)⟩

/-! Claim C5. -/

/-- C5 counterexample: the bare symbol Mut contains no underscore, so its
suffix is missing in the sense of the claim, yet ClusterAssociations
classifies it as a mutation feature, tests it and (with a small p-value)
reports it. -/
theorem claim5_counterexample :
    ClusterAssociations [[PyF.val 0], [PyF.val 1]] [['M', 'u', 't']] [1, 1] 1
      (fun _ _ => 0) (fun _ => PyF.nan) = Except.ok [['M', 'u', 't']] ∧
    '_' ∉ (['M', 'u', 't'] : Sym) := by
  refine ⟨?_, by decide⟩
  have hstat := chiStat_isVal [[PyF.val 0], [PyF.val 1]] [1, 1] 0
    (by decide) (by decide) (by decide)
  have hpv := mutPValue_const [[PyF.val 0], [PyF.val 1]] [1, 1] 0 0 hstat
  have hmu : mutationsOf [['M', 'u', 't']] = [0] := by decide
  have hcn : cnvsOf [['M', 'u', 't']] = [] := by decide
  unfold ClusterAssociations
  rw [hmu, hcn]
  norm_num [List.foldl, mutStep, hpv, sigTest, PyF.lt, List.foldlM, Except.map, List.getD,
    pure, Except.pure]

/-- C5 amended: classification is by the text after the last underscore,
except that a symbol without any underscore is compared whole, so the
bare symbols Mut and CNV are classified as their type; every other suffix
is excluded from both groups, and the two groups never overlap. -/
theorem claim5_amended (S : List Sym) (m : ℕ) :
    (m ∈ mutationsOf S ↔ m < S.length ∧
      ((∃ t, S.getD m [] = t ++ '_' :: mutTag) ∨ (S.getD m [] = mutTag ∧ '_' ∉ S.getD m []))) ∧
    (m ∈ cnvsOf S ↔ m < S.length ∧
      ((∃ t, S.getD m [] = t ++ '_' :: cnvTag) ∨ (S.getD m [] = cnvTag ∧ '_' ∉ S.getD m []))) ∧
    ¬(m ∈ mutationsOf S ∧ m ∈ cnvsOf S) := by
  have hmem : ∀ tag : Sym, ('_' ∉ tag) →
      ((m ∈ idxFilter (fun s => decide (suffixOf s = tag)) 0 S) ↔ m < S.length ∧
        ((∃ t, S.getD m [] = t ++ '_' :: tag) ∨ (S.getD m [] = tag ∧ '_' ∉ S.getD m []))) := by
    intro tag htag
    rw [idxFilter_mem]
    constructor
    · rintro ⟨k, hk, rfl, hp⟩
      simp only [Nat.zero_add]
      refine ⟨hk, ?_⟩
      exact (suffixOf_eq_iff htag).mp (by simpa using hp)
    · rintro ⟨hm, hchar⟩
      exact ⟨m, hm, by omega, by simpa using (suffixOf_eq_iff htag).mpr hchar⟩
  have hMut := hmem mutTag (by decide)
  have hCNV := hmem cnvTag (by decide)
  refine ⟨hMut, hCNV, ?_⟩
  rintro ⟨h1, h2⟩
  have e1 : suffixOf (S.getD m []) = mutTag :=
    (suffixOf_eq_iff (by decide)).mpr (hMut.mp h1).2
  have e2 : suffixOf (S.getD m []) = cnvTag :=
    (suffixOf_eq_iff (by decide)).mpr (hCNV.mp h2).2
  rw [e1] at e2
  exact absurd e2 (by decide)

/-- C5 witness: the amended classification applied to the well formed
symbol a_Mut at index 0. -/
theorem claim5_amended_witness : 0 ∈ mutationsOf [['a', '_', 'M', 'u', 't']] :=
  (claim5_amended [['a', '_', 'M', 'u', 't']] 0).1.mpr
    ⟨by decide, Or.inl ⟨['a'], by decide⟩⟩

/-! Loop characterization lemmas for ClusterAssociations. -/

/-- The mutation loop appends exactly the symbols whose p-value passes
the threshold, in list order. -/
theorem mutFold_sig (Raw : List (List PyF)) (Labels : List ℕ) (sf : ℚ → ℕ → ℚ) (Tau : ℚ)
    (S : List Sym) :
    ∀ (ms : List ℕ) (st : CAState),
      (ms.foldl (mutStep Raw Labels sf Tau S) st).sig =
        st.sig ++ (ms.filter (fun m => sigTest (mutPValue Raw Labels sf m) Tau)).map
          (fun m => S.getD m []) := by
  intro ms
  induction ms with
  | nil => intro st; simp
  | cons m ms ih =>
      intro st
      rw [List.foldl_cons, ih, List.filter_cons]
      by_cases hp : sigTest (mutPValue Raw Labels sf m) Tau
      · simp [mutStep, hp]
      · simp [mutStep, hp]

/-- A successful copy-number step appends at most its own symbol. -/
theorem cnvStep_ok_sig {Raw : List (List PyF)} {Labels : List ℕ}
    {kw : List (List PyF) → PyF} {Tau : ℚ} {S : List Sym} {st : CAState} {c : ℕ}
    {st1 : CAState} (h : cnvStep Raw Labels kw Tau S st c = Except.ok st1) :
    ∃ tail, st1.sig = st.sig ++ tail ∧ (tail = [] ∨ tail = [S.getD c []]) := by
  unfold cnvStep at h
  split at h
  · cases h
  · rename_i pv heq
    injection h with h
    rw [← h]
    by_cases hp : sigTest pv Tau
    · exact ⟨[S.getD c []], by simp [hp], Or.inr rfl⟩
    · exact ⟨[], by simp [hp], Or.inl rfl⟩

/-- A successful copy-number loop only extends the Significant list, and
every appended symbol belongs to a feature of the traversed index list. -/
theorem cnvFold_sig (Raw : List (List PyF)) (Labels : List ℕ)
    (kw : List (List PyF) → PyF) (Tau : ℚ) (S : List Sym) :
    ∀ (cs : List ℕ) (st st' : CAState),
      cs.foldlM (cnvStep Raw Labels kw Tau S) st = Except.ok st' →
      ∃ rest, st'.sig = st.sig ++ rest ∧ ∀ s ∈ rest, ∃ c ∈ cs, s = S.getD c [] := by
  intro cs
  induction cs with
  | nil =>
      intro st st' h
      rw [List.foldlM_nil] at h
      injection h with h
      exact ⟨[], by simp [h], by simp⟩
  | cons c cs ih =>
      intro st st' h
      rw [List.foldlM_cons] at h
      cases hstep : cnvStep Raw Labels kw Tau S st c with
      | error e => rw [hstep] at h; cases h
      | ok st1 =>
          rw [hstep] at h
          have h2 : cs.foldlM (cnvStep Raw Labels kw Tau S) st1 = Except.ok st' := h
          obtain ⟨rest, hr, hmem⟩ := ih st1 st' h2
          obtain ⟨tail, htail, hcase⟩ := cnvStep_ok_sig hstep
          refine ⟨tail ++ rest, by rw [hr, htail, List.append_assoc], ?_⟩
          intro s hs
          rcases List.mem_append.mp hs with hs | hs
          · rcases hcase with h0 | h0 <;> rw [h0] at hs
            · cases hs
            · exact ⟨c, List.mem_cons_self c cs, by simpa using hs⟩
          · obtain ⟨c2, hc2, he⟩ := hmem s hs
            exact ⟨c2, List.mem_cons_of_mem c hc2, he⟩

/-! Claim C3. -/

/-- C3: for each mutation feature the p-value is the chi-square survival
function of the 2 by K table statistic at 2K - 2 degrees of freedom
(ddof = 1), and whenever ClusterAssociations returns, its output starts
with exactly those mutation symbols whose p-value is strictly below Tau,
in feature order. -/
theorem claim3_mutation_reporting (Raw : List (List PyF)) (S : List Sym) (Labels : List ℕ)
    (Tau : ℚ) (sf : ℚ → ℕ → ℚ) (kw : List (List PyF) → PyF) (L : List Sym)
    (h : ClusterAssociations Raw S Labels Tau sf kw = Except.ok L) :
    (∀ m, mutPValue Raw Labels sf m =
      sfPv sf (chiStat Raw Labels m) (2 * maxLabel Labels - 2)) ∧
    ∃ rest, L = ((mutationsOf S).filter
        (fun m => sigTest (mutPValue Raw Labels sf m) Tau)).map (fun m => S.getD m []) ++ rest := by
  refine ⟨fun m => rfl, ?_⟩
  unfold ClusterAssociations at h
  cases hres : (cnvsOf S).foldlM (cnvStep Raw Labels kw Tau S)
      ((mutationsOf S).foldl (mutStep Raw Labels sf Tau S) ⟨none, []⟩) with
  | error e => rw [hres] at h; cases h
  | ok stF =>
      rw [hres] at h
      have hL : L = stF.sig := by
        have : Except.ok (ε := Unit) stF.sig = Except.ok L := h
        injection this with this
        exact this.symm
      obtain ⟨rest, hsig, _⟩ := cnvFold_sig Raw Labels kw Tau S (cnvsOf S) _ _ hres
      refine ⟨rest, ?_⟩
      rw [hL, hsig, mutFold_sig]
      simp

/-- C3 witness: the theorem applied to a single mutation feature that
tests significant under a constant oracle. -/
theorem claim3_mutation_reporting_witness :
    ∃ rest, ([['a', '_', 'M', 'u', 't']] : List Sym) =
      ((mutationsOf [['a', '_', 'M', 'u', 't']]).filter
        (fun m => sigTest (mutPValue [[PyF.val 0], [PyF.val 1]] [1, 1] (fun _ _ => 0) m) 1)).map
        (fun m => ([['a', '_', 'M', 'u', 't']] : List Sym).getD m []) ++ rest := by
  have hstat := chiStat_isVal [[PyF.val 0], [PyF.val 1]] [1, 1] 0
    (by decide) (by decide) (by decide)
  have hpv := mutPValue_const [[PyF.val 0], [PyF.val 1]] [1, 1] 0 0 hstat
  have hmu : mutationsOf [['a', '_', 'M', 'u', 't']] = [0] := by decide
  have hcn : cnvsOf [['a', '_', 'M', 'u', 't']] = [] := by decide
  have hCA : ClusterAssociations [[PyF.val 0], [PyF.val 1]] [['a', '_', 'M', 'u', 't']] [1, 1] 1
      (fun _ _ => 0) (fun _ => PyF.nan) = Except.ok [['a', '_', 'M', 'u', 't']] := by
    unfold ClusterAssociations
    rw [hmu, hcn]
    norm_num [List.foldl, mutStep, hpv, sigTest, PyF.lt, List.foldlM, Except.map, List.getD,
      pure, Except.pure]
  exact (claim3_mutation_reporting [[PyF.val 0], [PyF.val 1]] [['a', '_', 'M', 'u', 't']]
    [1, 1] 1 (fun _ _ => 0) (fun _ => PyF.nan) [['a', '_', 'M', 'u', 't']] hCA).2

/-! Claim C2. -/

/-- C2: evaluation of ClusterAssociations at cluster counts outside 2..5.
When no chi-square test has run before the copy-number loop, reading p
raises a NameError (the error result); when a mutation test has run, its
stale p-value decides the untested CNV feature, which is reported as
significant although its Kruskal-Wallis branch was skipped. Both
behaviors contradict the silently-skipped description. -/
theorem claim2_stale_p :
    ClusterAssociations [[PyF.val 0], [PyF.val 0]] [['b', '_', 'C', 'N', 'V']] [1, 6] (1 / 20)
      (fun _ _ => 0) (fun _ => PyF.nan) = Except.error () ∧
    ClusterAssociations
      [[PyF.val 0, PyF.val 7], [PyF.val 1, PyF.val 7], [PyF.val 0, PyF.val 7],
       [PyF.val 1, PyF.val 7], [PyF.val 0, PyF.val 7], [PyF.val 1, PyF.val 7]]
      [['a', '_', 'M', 'u', 't'], ['b', '_', 'C', 'N', 'V']] [1, 2, 3, 4, 5, 6] (1 / 20)
      (fun _ _ => 0) (fun _ => PyF.nan) =
      Except.ok [['a', '_', 'M', 'u', 't'], ['b', '_', 'C', 'N', 'V']] := by
  constructor
  · rfl
  · have hstat := chiStat_isVal
      [[PyF.val 0, PyF.val 7], [PyF.val 1, PyF.val 7], [PyF.val 0, PyF.val 7],
       [PyF.val 1, PyF.val 7], [PyF.val 0, PyF.val 7], [PyF.val 1, PyF.val 7]]
      [1, 2, 3, 4, 5, 6] 0 (by decide) (by decide) (by decide)
    have hpv := mutPValue_const
      [[PyF.val 0, PyF.val 7], [PyF.val 1, PyF.val 7], [PyF.val 0, PyF.val 7],
       [PyF.val 1, PyF.val 7], [PyF.val 0, PyF.val 7], [PyF.val 1, PyF.val 7]]
      [1, 2, 3, 4, 5, 6] 0 0 hstat
    have hmu : mutationsOf [['a', '_', 'M', 'u', 't'], ['b', '_', 'C', 'N', 'V']] = [0] := by
      decide
    have hcn : cnvsOf [['a', '_', 'M', 'u', 't'], ['b', '_', 'C', 'N', 'V']] = [1] := by
      decide
    have hK : maxLabel [1, 2, 3, 4, 5, 6] = 6 := by decide
    unfold ClusterAssociations
    rw [hmu, hcn]
    norm_num [List.foldl, mutStep, hpv, sigTest, PyF.lt, List.foldlM, Except.map, List.getD,
      pure, Except.pure, cnvStep, hK, Bind.bind, Except.bind]

/-! Claim C6. -/

theorem chiTerm_nan (x : PyF) : chiTerm x PyF.nan = PyF.nan := by
  cases x <;> rfl

theorem chiTerm_zero_zero : chiTerm (PyF.val 0) (PyF.val 0) = PyF.nan := by
  show PyF.div (PyF.val ((0 + -0) * (0 + -0))) (PyF.val 0) = PyF.nan
  norm_num [PyF.div]

/-- A zero row marginal forces every cell of that row to zero. -/
theorem obsCnt_eq_zero_of_rowMarg {Raw : List (List PyF)} {Labels : List ℕ} {m : ℕ} {r : ℚ}
    {c : ℕ} (h : rowMarg Raw Labels m r = 0) (hc : c < maxLabel Labels) :
    obsCnt Raw Labels r (c + 1) m = 0 := by
  unfold rowMarg at h
  rw [List.sum_eq_zero_iff] at h
  exact h _ (List.mem_map.mpr ⟨c, List.mem_range.mpr hc, rfl⟩)

/-- When the observed table of a mutation feature has a zero row or
column marginal, the chi-square statistic is NaN: either the grand total
is zero and the expected counts are NaN, or some cell has observed 0 and
expected 0 and its term is the NaN value 0/0. -/
theorem chiStat_nan_of_zero_marginal (Raw : List (List PyF)) (Labels : List ℕ) (m : ℕ)
    (hK : 1 ≤ maxLabel Labels)
    (hz : rowMarg Raw Labels m 0 = 0 ∨ rowMarg Raw Labels m 1 = 0 ∨
          ∃ c, c < maxLabel Labels ∧ colMarg Raw Labels m c = 0) :
    chiStat Raw Labels m = PyF.nan := by
  unfold chiStat
  apply foldl_add_eq_nan_of_mem
  apply List.mem_map.mpr
  by_cases htot : tableTotal Raw Labels m = 0
  · -- the whole table is zero: cell (0, 0) has observed 0 and expected NaN
    have h0 : rowMarg Raw Labels m 0 = 0 := by
      unfold tableTotal at htot; omega
    have hobs : obsCnt Raw Labels 0 1 m = 0 := obsCnt_eq_zero_of_rowMarg h0 hK
    have hE : expectedAt Raw Labels m 0 0 = PyF.nan := by
      unfold expectedAt
      rw [htot, h0]
      norm_num [PyF.div]
    refine ⟨(0, 0), chiCells_mem_of 0 0 (Or.inl rfl) hK, ?_⟩
    show chiTerm (PyF.val ((obsCnt Raw Labels 0 1 m : ℚ))) (expectedAt Raw Labels m 0 0) =
      PyF.nan
    rw [hE, chiTerm_nan]
  · have htotQ : ((tableTotal Raw Labels m : ℕ) : ℚ) ≠ 0 := Nat.cast_ne_zero.mpr htot
    rcases hz with h0 | h1 | ⟨c0, hc0, hcm⟩
    · have hobs : obsCnt Raw Labels 0 1 m = 0 := obsCnt_eq_zero_of_rowMarg h0 hK
      have hE : expectedAt Raw Labels m 0 0 = PyF.val 0 := by
        rw [expectedAt_val Raw Labels m 0 0 htotQ, h0]
        norm_num
      refine ⟨(0, 0), chiCells_mem_of 0 0 (Or.inl rfl) hK, ?_⟩
      show chiTerm (PyF.val ((obsCnt Raw Labels 0 1 m : ℚ))) (expectedAt Raw Labels m 0 0) =
        PyF.nan
      rw [hobs, hE]
      norm_num [chiTerm_zero_zero]
    · have hobs : obsCnt Raw Labels 1 1 m = 0 := obsCnt_eq_zero_of_rowMarg h1 hK
      have hE : expectedAt Raw Labels m 1 0 = PyF.val 0 := by
        rw [expectedAt_val Raw Labels m 1 0 htotQ, h1]
        norm_num
      refine ⟨(1, 0), chiCells_mem_of 1 0 (Or.inr rfl) hK, ?_⟩
      show chiTerm (PyF.val ((obsCnt Raw Labels 1 1 m : ℚ))) (expectedAt Raw Labels m 1 0) =
        PyF.nan
      rw [hobs, hE]
      norm_num [chiTerm_zero_zero]
    · have hobs : obsCnt Raw Labels 0 (c0 + 1) m = 0 := by
        unfold colMarg at hcm; omega
      have hE : expectedAt Raw Labels m 0 c0 = PyF.val 0 := by
        rw [expectedAt_val Raw Labels m 0 c0 htotQ, hcm]
        norm_num
      refine ⟨(0, c0), chiCells_mem_of 0 c0 (Or.inl rfl) hc0, ?_⟩
      show chiTerm (PyF.val ((obsCnt Raw Labels 0 (c0 + 1) m : ℚ)))
        (expectedAt Raw Labels m 0 c0) = PyF.nan
      rw [hobs, hE]
      norm_num [chiTerm_zero_zero]

/-- C6 counterexample: the feature with raw values 0, 0, 1, 1, 1 and all
samples in cluster 2 has a zero first-column marginal, yet every expected
count is a finite value (0, 2, 0 or 3): no division by zero occurs in the
expected counts, which contradicts the claimed NaN degeneracy there. The
NaN only arises afterwards, in the statistic. -/
theorem claim6_counterexample :
    colMarg [[PyF.val 0], [PyF.val 0], [PyF.val 1], [PyF.val 1], [PyF.val 1]]
      [2, 2, 2, 2, 2] 0 0 = 0 ∧
    expectedAt [[PyF.val 0], [PyF.val 0], [PyF.val 1], [PyF.val 1], [PyF.val 1]]
      [2, 2, 2, 2, 2] 0 0 0 = PyF.val 0 ∧
    expectedAt [[PyF.val 0], [PyF.val 0], [PyF.val 1], [PyF.val 1], [PyF.val 1]]
      [2, 2, 2, 2, 2] 0 0 1 = PyF.val 2 ∧
    expectedAt [[PyF.val 0], [PyF.val 0], [PyF.val 1], [PyF.val 1], [PyF.val 1]]
      [2, 2, 2, 2, 2] 0 1 0 = PyF.val 0 ∧
    expectedAt [[PyF.val 0], [PyF.val 0], [PyF.val 1], [PyF.val 1], [PyF.val 1]]
      [2, 2, 2, 2, 2] 0 1 1 = PyF.val 3 ∧
    chiStat [[PyF.val 0], [PyF.val 0], [PyF.val 1], [PyF.val 1], [PyF.val 1]]
      [2, 2, 2, 2, 2] 0 = PyF.nan := by
  have htot : tableTotal [[PyF.val 0], [PyF.val 0], [PyF.val 1], [PyF.val 1], [PyF.val 1]]
      [2, 2, 2, 2, 2] 0 = 5 := by decide
  have htotQ : ((tableTotal [[PyF.val 0], [PyF.val 0], [PyF.val 1], [PyF.val 1], [PyF.val 1]]
      [2, 2, 2, 2, 2] 0 : ℕ) : ℚ) ≠ 0 := by rw [htot]; norm_num
  have hr0 : rowMarg [[PyF.val 0], [PyF.val 0], [PyF.val 1], [PyF.val 1], [PyF.val 1]]
      [2, 2, 2, 2, 2] 0 0 = 2 := by decide
  have hr1 : rowMarg [[PyF.val 0], [PyF.val 0], [PyF.val 1], [PyF.val 1], [PyF.val 1]]
      [2, 2, 2, 2, 2] 0 1 = 3 := by decide
  have hc0 : colMarg [[PyF.val 0], [PyF.val 0], [PyF.val 1], [PyF.val 1], [PyF.val 1]]
      [2, 2, 2, 2, 2] 0 0 = 0 := by decide
  have hc1 : colMarg [[PyF.val 0], [PyF.val 0], [PyF.val 1], [PyF.val 1], [PyF.val 1]]
      [2, 2, 2, 2, 2] 0 1 = 5 := by decide
  refine ⟨hc0, ?_, ?_, ?_, ?_, ?_⟩
  · rw [expectedAt_val _ _ _ _ _ htotQ, hr0, hc0]; norm_num
  · rw [expectedAt_val _ _ _ _ _ htotQ, hr0, hc1, htot]; norm_num
  · rw [expectedAt_val _ _ _ _ _ htotQ, hr1, hc0]; norm_num
  · rw [expectedAt_val _ _ _ _ _ htotQ, hr1, hc1, htot]; norm_num
  · exact chiStat_nan_of_zero_marginal _ _ _ (by decide) (Or.inr (Or.inr ⟨0, by decide, hc0⟩))

/-- C6 amended: a zero row or column marginal makes the chi-square
statistic NaN (via a 0/0 term; the expected counts themselves are NaN
only when the whole table is zero), the NaN p-value propagates without
raising, and the feature is never reported as significant. -/
theorem claim6_amended (Raw : List (List PyF)) (S : List Sym) (Labels : List ℕ) (Tau : ℚ)
    (sf : ℚ → ℕ → ℚ) (m : ℕ) (hK : 1 ≤ maxLabel Labels)
    (hz : rowMarg Raw Labels m 0 = 0 ∨ rowMarg Raw Labels m 1 = 0 ∨
          ∃ c, c < maxLabel Labels ∧ colMarg Raw Labels m c = 0) :
    chiStat Raw Labels m = PyF.nan ∧
    mutPValue Raw Labels sf m = PyF.nan ∧
    sigTest (mutPValue Raw Labels sf m) Tau = false ∧
    m ∉ (mutationsOf S).filter (fun i => sigTest (mutPValue Raw Labels sf i) Tau) := by
  have hstat := chiStat_nan_of_zero_marginal Raw Labels m hK hz
  have hpv : mutPValue Raw Labels sf m = PyF.nan := by
    unfold mutPValue
    rw [hstat]
    rfl
  have hsig : sigTest (mutPValue Raw Labels sf m) Tau = false := by
    rw [hpv]
    rfl
  refine ⟨hstat, hpv, hsig, ?_⟩
  intro hmem
  have := (List.mem_filter.mp hmem).2
  rw [hsig] at this
  cases this

/-- C6 witness: the amended theorem applied to a feature observed only in
cluster 2, so cluster 1 has a zero column marginal. -/
theorem claim6_amended_witness :
    (∃ c, c < maxLabel [2, 2] ∧ colMarg [[PyF.val 0], [PyF.val 0]] [2, 2] 0 c = 0) ∧
    mutPValue [[PyF.val 0], [PyF.val 0]] [2, 2] (fun _ _ => 1 / 2) 0 = PyF.nan ∧
    0 ∉ (mutationsOf [['x', '_', 'M', 'u', 't']]).filter
      (fun i => sigTest (mutPValue [[PyF.val 0], [PyF.val 0]] [2, 2] (fun _ _ => 1 / 2) i)
        (1 / 20)) := by
  have h := claim6_amended [[PyF.val 0], [PyF.val 0]] [['x', '_', 'M', 'u', 't']] [2, 2]
    (1 / 20) (fun _ _ => 1 / 2) 0 (by decide) (Or.inr (Or.inr ⟨0, by decide, by decide⟩))
  exact ⟨⟨0, by decide, by decide⟩, h.2.1, h.2.2.2⟩

/-! Claim C8. -/

/-- Every symbol a successful ClusterAssociations call returns belongs to
a feature classified as mutation or copy-number. -/
theorem CA_ok_symbol_class (Raw : List (List PyF)) (S : List Sym) (Labels : List ℕ)
    (Tau : ℚ) (sf : ℚ → ℕ → ℚ) (kw : List (List PyF) → PyF) (L : List Sym)
    (h : ClusterAssociations Raw S Labels Tau sf kw = Except.ok L) :
    ∀ s ∈ L, (∃ m ∈ mutationsOf S, s = S.getD m []) ∨ ∃ c ∈ cnvsOf S, s = S.getD c [] := by
  unfold ClusterAssociations at h
  cases hres : (cnvsOf S).foldlM (cnvStep Raw Labels kw Tau S)
      ((mutationsOf S).foldl (mutStep Raw Labels sf Tau S) ⟨none, []⟩) with
  | error e => rw [hres] at h; cases h
  | ok stF =>
      rw [hres] at h
      have hL : L = stF.sig := by
        have h2 : Except.ok (ε := Unit) stF.sig = Except.ok L := h
        injection h2 with h2
        exact h2.symm
      obtain ⟨rest, hsig, hmem⟩ := cnvFold_sig Raw Labels kw Tau S (cnvsOf S) _ _ hres
      intro s hs
      rw [hL, hsig, mutFold_sig] at hs
      rcases List.mem_append.mp hs with hs | hs
      · left
        simp only [List.nil_append] at hs
        obtain ⟨m, hm, he⟩ := List.mem_map.mp hs
        exact ⟨m, (List.mem_filter.mp hm).1, he.symm⟩
      · right
        exact hmem s hs

theorem pyStrip_append_four (t : Sym) (c1 c2 c3 c4 : Char)
    (h1 : pySpace c1 = false) (h4 : pySpace c4 = false) :
    pyStrip (t ++ [c1, c2, c3, c4]) = t.dropWhile pySpace ++ [c1, c2, c3, c4] := by
  have hd : (t ++ [c1, c2, c3, c4]).dropWhile pySpace =
      t.dropWhile pySpace ++ [c1, c2, c3, c4] := by
    rw [List.dropWhile_append]
    by_cases he : (t.dropWhile pySpace).isEmpty
    · rw [if_pos he, List.dropWhile_cons, if_neg (by simp [h1])]
      have : t.dropWhile pySpace = [] := by
        cases hcase : t.dropWhile pySpace
        · rfl
        · rw [hcase] at he; cases he
      rw [this, List.nil_append]
    · rw [if_neg he]
  unfold pyStrip
  rw [hd]
  have hrev : (t.dropWhile pySpace ++ [c1, c2, c3, c4]).reverse =
      c4 :: (c3 :: c2 :: c1 :: (t.dropWhile pySpace).reverse) := by
    rw [List.reverse_append]
    rfl
  rw [hrev, List.dropWhile_cons, if_neg (by simp [h4]), ← hrev, List.reverse_reverse]

theorem lastFour_append_four (u : Sym) (c1 c2 c3 c4 : Char) :
    lastFour (u ++ [c1, c2, c3, c4]) = [c1, c2, c3, c4] := by
  unfold lastFour
  have hlen : (u ++ [c1, c2, c3, c4]).length - 4 = u.length := by simp
  rw [hlen, List.drop_left]

/-- C8 counterexample: the bare symbol Mut is significant (with a small
oracle p-value), but the rendering split keys on strip()[-4:], so it
lands in neither the mutation subset nor the CNV subset: the two subsets
do not cover the significant list. -/
theorem claim8_counterexample :
    ClusterAssociations [[PyF.val 0], [PyF.val 1]] [['M', 'u', 't']] [1, 1] 1
      (fun _ _ => 0) (fun _ => PyF.nan) = Except.ok [['M', 'u', 't']] ∧
    sigMutOf [['M', 'u', 't']] = [] ∧ sigCNVOf [['M', 'u', 't']] = [] := by
  refine ⟨?_, by decide, by decide⟩
  have hstat := chiStat_isVal [[PyF.val 0], [PyF.val 1]] [1, 1] 0
    (by decide) (by decide) (by decide)
  have hpv := mutPValue_const [[PyF.val 0], [PyF.val 1]] [1, 1] 0 0 hstat
  have hmu : mutationsOf [['M', 'u', 't']] = [0] := by decide
  have hcn : cnvsOf [['M', 'u', 't']] = [] := by decide
  unfold ClusterAssociations
  rw [hmu, hcn]
  norm_num [List.foldl, mutStep, hpv, sigTest, PyF.lt, List.foldlM, Except.map, List.getD,
    pure, Except.pure]

/-- C8 amended: every significant symbol lies in at most one of the two
annotation subsets; it lies in exactly one unless it is the bare symbol
Mut or CNV (which the rfind-based classifier admits but the
strip()[-4:] test rejects), in which case both subsets drop it. -/
theorem claim8_amended (Raw : List (List PyF)) (S : List Sym) (Labels : List ℕ) (Tau : ℚ)
    (sf : ℚ → ℕ → ℚ) (kw : List (List PyF) → PyF) (L : List Sym)
    (h : ClusterAssociations Raw S Labels Tau sf kw = Except.ok L) :
    ∀ s ∈ L,
      (s ∈ sigMutOf L ∧ s ∉ sigCNVOf L) ∨ (s ∈ sigCNVOf L ∧ s ∉ sigMutOf L) ∨
      ((s = mutTag ∨ s = cnvTag) ∧ s ∉ sigMutOf L ∧ s ∉ sigCNVOf L) := by
  intro s hs
  have hclass := CA_ok_symbol_class Raw S Labels Tau sf kw L h s hs
  have hsuffix : suffixOf s = mutTag ∨ suffixOf s = cnvTag := by
    rcases hclass with ⟨m, hm, he⟩ | ⟨c, hc, he⟩
    · left
      obtain ⟨k, hk, hik, hp⟩ := (idxFilter_mem _ S 0 m).mp hm
      have hkm : k = m := by omega
      rw [he, ← hkm]
      simpa using hp
    · right
      obtain ⟨k, hk, hik, hp⟩ := (idxFilter_mem _ S 0 c).mp hc
      have hkc : k = c := by omega
      rw [he, ← hkc]
      simpa using hp
  rcases hsuffix with hsuf | hsuf
  · rcases (suffixOf_eq_iff (by decide)).mp hsuf with ⟨t, hts⟩ | ⟨hbare, hnom⟩
    · left
      have hlast : lastFour (pyStrip s) = mutTag4 := by
        rw [hts, show ('_' :: mutTag : Sym) = ['_', 'M', 'u', 't'] from rfl]
        rw [pyStrip_append_four t '_' 'M' 'u' 't' (by decide) (by decide),
          lastFour_append_four]
        rfl
      refine ⟨List.mem_filter.mpr ⟨hs, by simp [hlast]⟩, ?_⟩
      intro hmem
      have hpred := (List.mem_filter.mp hmem).2
      rw [hlast] at hpred
      exact absurd (of_decide_eq_true hpred) (by decide)
    · right; right
      refine ⟨Or.inl hbare, ?_, ?_⟩
      · intro hmem
        have hpred := (List.mem_filter.mp hmem).2
        rw [hbare] at hpred
        exact absurd (of_decide_eq_true hpred) (by decide)
      · intro hmem
        have hpred := (List.mem_filter.mp hmem).2
        rw [hbare] at hpred
        exact absurd (of_decide_eq_true hpred) (by decide)
  · rcases (suffixOf_eq_iff (by decide)).mp hsuf with ⟨t, hts⟩ | ⟨hbare, hnom⟩
    · right; left
      have hlast : lastFour (pyStrip s) = cnvTag4 := by
        rw [hts, show ('_' :: cnvTag : Sym) = ['_', 'C', 'N', 'V'] from rfl]
        rw [pyStrip_append_four t '_' 'C' 'N' 'V' (by decide) (by decide),
          lastFour_append_four]
        rfl
      refine ⟨List.mem_filter.mpr ⟨hs, by simp [hlast]⟩, ?_⟩
      intro hmem
      have hpred := (List.mem_filter.mp hmem).2
      rw [hlast] at hpred
      exact absurd (of_decide_eq_true hpred) (by decide)
    · right; right
      refine ⟨Or.inr hbare, ?_, ?_⟩
      · intro hmem
        have hpred := (List.mem_filter.mp hmem).2
        rw [hbare] at hpred
        exact absurd (of_decide_eq_true hpred) (by decide)
      · intro hmem
        have hpred := (List.mem_filter.mp hmem).2
        rw [hbare] at hpred
        exact absurd (of_decide_eq_true hpred) (by decide)

/-- C8 witness: the amended partition applied to the significant symbol
a_Mut, which falls in the mutation subset and not the CNV subset. -/
theorem claim8_amended_witness :
    (['a', '_', 'M', 'u', 't'] : Sym) ∈ sigMutOf [['a', '_', 'M', 'u', 't']] ∧
    (['a', '_', 'M', 'u', 't'] : Sym) ∉ sigCNVOf [['a', '_', 'M', 'u', 't']] := by
  have hstat := chiStat_isVal [[PyF.val 0], [PyF.val 1]] [1, 1] 0
    (by decide) (by decide) (by decide)
  have hpv := mutPValue_const [[PyF.val 0], [PyF.val 1]] [1, 1] 0 0 hstat
  have hmu : mutationsOf [['a', '_', 'M', 'u', 't']] = [0] := by decide
  have hcn : cnvsOf [['a', '_', 'M', 'u', 't']] = [] := by decide
  have hCA : ClusterAssociations [[PyF.val 0], [PyF.val 1]] [['a', '_', 'M', 'u', 't']] [1, 1] 1
      (fun _ _ => 0) (fun _ => PyF.nan) = Except.ok [['a', '_', 'M', 'u', 't']] := by
    unfold ClusterAssociations
    rw [hmu, hcn]
    norm_num [List.foldl, mutStep, hpv, sigTest, PyF.lt, List.foldlM, Except.map, List.getD,
      pure, Except.pure]
  have h := claim8_amended [[PyF.val 0], [PyF.val 1]] [['a', '_', 'M', 'u', 't']] [1, 1] 1
    (fun _ _ => 0) (fun _ => PyF.nan) [['a', '_', 'M', 'u', 't']] hCA
    ['a', '_', 'M', 'u', 't'] (by simp)
  rcases h with ⟨h1, h2⟩ | ⟨h1, _⟩ | ⟨h1, _, _⟩
  · exact ⟨h1, h2⟩
  · exact absurd h1 (by decide)
  · rcases h1 with h1 | h1 <;> exact absurd h1 (by decide)

/-! Claim C10. -/

theorem countP_add_disjoint {α : Type} (p q : α → Bool) (l : List α)
    (h : ∀ x, ¬(p x = true ∧ q x = true)) :
    l.countP p + l.countP q = l.countP (fun x => p x || q x) := by
  induction l with
  | nil => simp
  | cons a l ih =>
      by_cases hp : p a = true
      · have hq : q a = false := by
          cases hq : q a
          · rfl
          · exact absurd ⟨hp, hq⟩ (h a)
        rw [List.countP_cons_of_pos _ _ hp, List.countP_cons_of_neg _ _ (by simp [hq]),
          List.countP_cons_of_pos _ _ (by simp [hp])]
        omega
      · by_cases hq : q a = true
        · rw [List.countP_cons_of_neg _ _ hp, List.countP_cons_of_pos _ _ hq,
            List.countP_cons_of_pos _ _ (by simp [hq])]
          omega
        · rw [List.countP_cons_of_neg _ _ hp, List.countP_cons_of_neg _ _ hq,
            List.countP_cons_of_neg _ _ (by simp [hp, hq])]
          omega

theorem obsCnt_eq_countP (Raw : List (List PyF)) (Labels : List ℕ) (r : ℚ) (j m : ℕ) :
    obsCnt Raw Labels r j m =
      (Raw.zip Labels).countP
        (fun rl => PyF.beq (rl.1.getD m PyF.nan) (PyF.val r) && (rl.2 == j)) := by
  unfold obsCnt clusterVals
  rw [List.countP_map, List.countP_filter]
  rfl

theorem sum_count_clusters {α : Type} (l : List (α × ℕ)) (P : α × ℕ → Bool) :
    ∀ K : ℕ,
      ((List.range K).map
        (fun c => l.countP (fun rl => P rl && (rl.2 == c + 1)))).sum =
      l.countP (fun rl => P rl && (decide (1 ≤ rl.2) && decide (rl.2 ≤ K))) := by
  intro K
  induction K with
  | zero =>
      simp only [List.range_zero, List.map_nil, List.sum_nil]
      rw [eq_comm, List.countP_eq_zero]
      intro a _
      simp only [Bool.and_eq_true, decide_eq_true_eq]
      omega
  | succ K ih =>
      rw [List.range_succ, List.map_append, List.sum_append]
      simp only [List.map_cons, List.map_nil, List.sum_cons, List.sum_nil, Nat.add_zero]
      rw [ih, countP_add_disjoint]
      · apply List.countP_congr
        intro a _
        simp only [Bool.and_eq_true, Bool.or_eq_true, decide_eq_true_eq, beq_iff_eq]
        constructor
        · rintro (⟨hP, h1, h2⟩ | ⟨hP, he⟩)
          · exact ⟨hP, h1, by omega⟩
          · exact ⟨hP, by omega, by omega⟩
        · rintro ⟨hP, h1, h2⟩
          by_cases he : a.2 = K + 1
          · exact Or.inr ⟨hP, he⟩
          · exact Or.inl ⟨hP, h1, by omega⟩
      · intro a
        simp only [Bool.and_eq_true, decide_eq_true_eq, beq_iff_eq]
        rintro ⟨⟨_, _, h2⟩, ⟨_, he⟩⟩
        omega

theorem beq_val_zero_one_disjoint (v : PyF) :
    ¬(PyF.beq v (PyF.val 0) = true ∧ PyF.beq v (PyF.val 1) = true) := by
  rintro ⟨h0, h1⟩
  cases v with
  | nan => cases h0
  | inf s => cases h0
  | val q =>
      have e0 : q = 0 := by simpa [PyF.beq] using h0
      have e1 : q = 1 := by simpa [PyF.beq] using h1
      rw [e0] at e1
      exact absurd e1 (by norm_num)

/-- C10: a sample enters the mutation contingency table exactly when its
raw value is 0 or 1 under float equality and its label lies in 1..K, so
features containing other values (including NaN) lose those samples from
both rows and the table total, which never exceeds the sample count. -/
theorem claim10_partial_table (Raw : List (List PyF)) (Labels : List ℕ) (m : ℕ) :
    (∀ (r : ℚ) (j : ℕ), obsCnt Raw Labels r j m =
      (Raw.zip Labels).countP
        (fun rl => PyF.beq (rl.1.getD m PyF.nan) (PyF.val r) && (rl.2 == j))) ∧
    tableTotal Raw Labels m =
      (Raw.zip Labels).countP
        (fun rl =>
          (PyF.beq (rl.1.getD m PyF.nan) (PyF.val 0) ||
           PyF.beq (rl.1.getD m PyF.nan) (PyF.val 1)) &&
          (decide (1 ≤ rl.2) && decide (rl.2 ≤ maxLabel Labels))) ∧
    tableTotal Raw Labels m ≤ Raw.length := by
  have hcnt := fun (r : ℚ) (j : ℕ) => obsCnt_eq_countP Raw Labels r j m
  have hrow : ∀ r : ℚ, rowMarg Raw Labels m r =
      (Raw.zip Labels).countP
        (fun rl => PyF.beq (rl.1.getD m PyF.nan) (PyF.val r) &&
          (decide (1 ≤ rl.2) && decide (rl.2 ≤ maxLabel Labels))) := by
    intro r
    unfold rowMarg
    rw [show (fun c => obsCnt Raw Labels r (c + 1) m) =
      (fun c => (Raw.zip Labels).countP
        (fun rl => PyF.beq (rl.1.getD m PyF.nan) (PyF.val r) && (rl.2 == c + 1)))
      from funext (fun c => hcnt r (c + 1))]
    exact sum_count_clusters (Raw.zip Labels)
      (fun rl => PyF.beq (rl.1.getD m PyF.nan) (PyF.val r)) (maxLabel Labels)
  have htot : tableTotal Raw Labels m =
      (Raw.zip Labels).countP
        (fun rl =>
          (PyF.beq (rl.1.getD m PyF.nan) (PyF.val 0) ||
           PyF.beq (rl.1.getD m PyF.nan) (PyF.val 1)) &&
          (decide (1 ≤ rl.2) && decide (rl.2 ≤ maxLabel Labels))) := by
    unfold tableTotal
    rw [hrow 0, hrow 1, countP_add_disjoint]
    · apply List.countP_congr
      intro a _
      cases hv : PyF.beq (a.1.getD m PyF.nan) (PyF.val 0) <;>
        cases hv1 : PyF.beq (a.1.getD m PyF.nan) (PyF.val 1) <;>
        simp [hv, hv1]
    · intro a
      simp only [Bool.and_eq_true]
      rintro ⟨⟨h0, _⟩, ⟨h1, _⟩⟩
      exact beq_val_zero_one_disjoint _ ⟨h0, h1⟩
  refine ⟨hcnt, htot, ?_⟩
  rw [htot]
  calc (Raw.zip Labels).countP _ ≤ (Raw.zip Labels).length := List.countP_le_length _
    _ ≤ Raw.length := by rw [List.length_zip]; exact min_le_left _ _

/-- C10 witness: a feature whose only value is 2 contributes no sample,
so the table total 0 is strictly below the sample count 1. -/
theorem claim10_partial_table_witness :
    tableTotal [[PyF.val 2]] [1] 0 =
      (([[PyF.val 2]] : List (List PyF)).zip [1]).countP
        (fun rl =>
          (PyF.beq (rl.1.getD 0 PyF.nan) (PyF.val 0) ||
           PyF.beq (rl.1.getD 0 PyF.nan) (PyF.val 1)) &&
          (decide (1 ≤ rl.2) && decide (rl.2 ≤ maxLabel [1]))) ∧
    tableTotal [[PyF.val 2]] [1] 0 < ([[PyF.val 2]] : List (List PyF)).length :=
  ⟨(claim10_partial_table [[PyF.val 2]] [1] 0).2.1, by decide⟩

/-! Claim C9. -/

theorem applyOrder_take {α : Type} (ord : List ℕ) (l : List α) (d : α) (k : ℕ) :
    (applyOrder ord l d).take k = applyOrder (ord.take k) l d := by
  unfold applyOrder
  rw [← List.map_take]

theorem applyOrder_drop {α : Type} (ord : List ℕ) (l : List α) (d : α) (k : ℕ) :
    (applyOrder ord l d).drop k = applyOrder (ord.drop k) l d := by
  unfold applyOrder
  rw [← List.map_drop]

/-- C9: in every shuffle iteration, the driver splits the permuted data
into the first fold, the second fold and the remainder; the same index
sub-lists of the same seeded permutation are applied to X, T and O in
each partition (so the three stay aligned through calc_at_risk), the
partition sizes are fold, fold and n - 2 fold with 2 fold at most n, and
the three index blocks are pairwise disjoint. -/
theorem claim9_shuffle_split (X : List (List ℚ)) (T : List ℚ) (O : List ℤ) (n : ℕ)
    (prng : ℕ → List ℕ) (i : ℕ) (hX : X.length = n) (hT : T.length = n)
    (hO : O.length = n) (hperm : (prng i).Perm (List.range n)) :
    2 * foldSize n ≤ n ∧
    ((runShuffle X T O (prng i)).2.1 =
        (applyOrder ((prng i).take (foldSize n)) X [],
         applyOrder ((prng i).take (foldSize n)) T 0,
         applyOrder ((prng i).take (foldSize n)) O 0,
         atRiskMatrix (applyOrder ((prng i).take (foldSize n)) T 0)) ∧
      (runShuffle X T O (prng i)).2.2 =
        (applyOrder (((prng i).drop (foldSize n)).take (foldSize n)) X [],
         applyOrder (((prng i).drop (foldSize n)).take (foldSize n)) T 0,
         applyOrder (((prng i).drop (foldSize n)).take (foldSize n)) O 0,
         atRiskMatrix (applyOrder (((prng i).drop (foldSize n)).take (foldSize n)) T 0)) ∧
      (runShuffle X T O (prng i)).1 =
        (applyOrder ((prng i).drop (2 * foldSize n)) X [],
         applyOrder ((prng i).drop (2 * foldSize n)) T 0,
         applyOrder ((prng i).drop (2 * foldSize n)) O 0,
         atRiskMatrix (applyOrder ((prng i).drop (2 * foldSize n)) T 0))) ∧
    (((prng i).take (foldSize n)).length = foldSize n ∧
      (((prng i).drop (foldSize n)).take (foldSize n)).length = foldSize n ∧
      ((prng i).drop (2 * foldSize n)).length = n - 2 * foldSize n) ∧
    (List.Disjoint ((prng i).take (foldSize n))
        (((prng i).drop (foldSize n)).take (foldSize n)) ∧
      List.Disjoint ((prng i).take (foldSize n)) ((prng i).drop (2 * foldSize n)) ∧
      List.Disjoint (((prng i).drop (foldSize n)).take (foldSize n))
        ((prng i).drop (2 * foldSize n))) := by
  have hlen : (prng i).length = n := by
    rw [hperm.length_eq, List.length_range]
  have hbound : 2 * foldSize n ≤ n := by
    unfold foldSize
    omega
  have hXlen : (applyOrder (prng i) X []).length = n := by
    unfold applyOrder
    rw [List.length_map, hlen]
  have hnd : (prng i).Nodup := hperm.symm.nodup (List.nodup_range n)
  have hsplit1 : (prng i).take (foldSize n) ++ (prng i).drop (foldSize n) = prng i :=
    List.take_append_drop _ _
  have hsplit2 : ((prng i).drop (foldSize n)).take (foldSize n) ++
      ((prng i).drop (2 * foldSize n)) = (prng i).drop (foldSize n) := by
    have h2 : ((prng i).drop (foldSize n)).drop (foldSize n) =
        (prng i).drop (2 * foldSize n) := by
      rw [List.drop_drop]
      congr 1
      omega
    rw [← h2]
    exact List.take_append_drop _ _
  have hnd2 : ((prng i).take (foldSize n) ++
      (((prng i).drop (foldSize n)).take (foldSize n) ++
        ((prng i).drop (2 * foldSize n)))).Nodup := by
    rw [hsplit2, hsplit1]
    exact hnd
  rw [List.nodup_append] at hnd2
  obtain ⟨_, hndr, hdisj1⟩ := hnd2
  rw [List.nodup_append] at hndr
  obtain ⟨_, _, hdisj23⟩ := hndr
  refine ⟨hbound, ⟨?_, ?_, ?_⟩, ⟨?_, ?_, ?_⟩, ?_, ?_, hdisj23⟩
  · show (calc_at_risk _ _ _) = _
    unfold calc_at_risk
    rw [hXlen, applyOrder_take, applyOrder_take, applyOrder_take]
  · show (calc_at_risk _ _ _) = _
    unfold calc_at_risk
    rw [hXlen, applyOrder_drop, applyOrder_drop, applyOrder_drop,
      applyOrder_take, applyOrder_take, applyOrder_take]
  · show (calc_at_risk _ _ _) = _
    unfold calc_at_risk
    rw [hXlen, applyOrder_drop, applyOrder_drop, applyOrder_drop]
  · rw [List.length_take, hlen]
    omega
  · rw [List.length_take, List.length_drop, hlen]
    omega
  · rw [List.length_drop, hlen]
  · intro a ha hmem
    exact hdisj1 ha (List.mem_append.mpr (Or.inl hmem))
  · intro a ha hmem
    exact hdisj1 ha (List.mem_append.mpr (Or.inr hmem))

/-- C9 witness: the split at n = 5 with the permutation 4 0 3 1 2 drawn
for shuffle index 0. -/
theorem claim9_shuffle_split_witness :
    2 * foldSize 5 ≤ 5 ∧
    List.Disjoint (([4, 0, 3, 1, 2] : List ℕ).take (foldSize 5))
      ((([4, 0, 3, 1, 2] : List ℕ).drop (foldSize 5)).take (foldSize 5)) := by
  have h := claim9_shuffle_split
    [[(1 : ℚ)], [2], [3], [4], [5]] [1, 2, 3, 4, 5] [1, 1, 0, 1, 0] 5
    (fun _ => [4, 0, 3, 1, 2]) 0 (by decide) (by decide) (by decide) (by decide)
  exact ⟨h.1, h.2.2.2.1⟩

/-! Claim C4. -/

/-- Reading the condensed pdist vector at the pair index recovers the
pairwise distance: the squareform layout used by scipy. -/
theorem condensedOf_getD :
    ∀ (i : ℕ) (d : ℕ → ℕ → ℚ) (n j : ℕ), i < j → j < n →
      (condensedOf n d).getD (condIdx n i j) 0 = d i j := by
  intro i
  induction i with
  | zero =>
      intro d n j hij hj
      obtain ⟨m, rfl⟩ : ∃ m, n = m + 1 := ⟨n - 1, by omega⟩
      have hsplit : condensedOf (m + 1) d =
          ((List.range (m + 1 - 1 - 0)).map (fun k => d 0 (0 + 1 + k))) ++
            (List.range m).flatMap
              (fun a => (List.range (m + 1 - 1 - Nat.succ a)).map
                (fun k => d (Nat.succ a) (Nat.succ a + 1 + k))) := by
        unfold condensedOf
        rw [List.range_succ_eq_map, List.flatMap_cons, List.flatMap_map]
      have hlen : ((List.range (m + 1 - 1 - 0)).map (fun k => d 0 (0 + 1 + k))).length = m := by
        simp
      have hidx : condIdx (m + 1) 0 j = j - 1 := rfl
      rw [hsplit, hidx, List.getD_append _ _ _ _ (by rw [hlen]; omega)]
      rw [List.getD_eq_getElem?_getD, List.getElem?_map,
        List.getElem?_range (by omega : j - 1 < m + 1 - 1 - 0)]
      rw [show Option.map (fun k => d 0 (0 + 1 + k)) (some (j - 1)) =
        some (d 0 (0 + 1 + (j - 1))) from rfl, Option.getD_some]
      congr 1
      omega
  | succ i ih =>
      intro d n j hij hj
      obtain ⟨m, rfl⟩ : ∃ m, n = m + 1 := ⟨n - 1, by omega⟩
      have hsplit : condensedOf (m + 1) d =
          ((List.range (m + 1 - 1 - 0)).map (fun k => d 0 (0 + 1 + k))) ++
            (List.range m).flatMap
              (fun a => (List.range (m + 1 - 1 - Nat.succ a)).map
                (fun k => d (Nat.succ a) (Nat.succ a + 1 + k))) := by
        unfold condensedOf
        rw [List.range_succ_eq_map, List.flatMap_cons, List.flatMap_map]
      have htail : (List.range m).flatMap
          (fun a => (List.range (m + 1 - 1 - Nat.succ a)).map
            (fun k => d (Nat.succ a) (Nat.succ a + 1 + k))) =
          condensedOf m (fun a b => d (a + 1) (b + 1)) := by
        unfold condensedOf
        congr 1
        funext a
        have h1 : m + 1 - 1 - Nat.succ a = m - 1 - a := by omega
        rw [h1]
        congr 1
        funext k
        congr 1
        omega
      have hidx : condIdx (m + 1) (i + 1) j = m + condIdx m i (j - 1) := by
        show (m + 1 - 1) + condIdx (m + 1 - 1) i (j - 1) = m + condIdx m i (j - 1)
        congr 1
      have hlen : ((List.range (m + 1 - 1 - 0)).map (fun k => d 0 (0 + 1 + k))).length = m := by
        simp
      rw [hsplit, hidx, htail, List.getD_append_right _ _ _ _ (by rw [hlen]; omega), hlen]
      have harg : m + condIdx m i (j - 1) - m = condIdx m i (j - 1) := by omega
      rw [harg, ih (fun a b => d (a + 1) (b + 1)) m (j - 1) (by omega) (by omega)]
      show d (i + 1) (j - 1 + 1) = d (i + 1) j
      congr 1
      omega

theorem squareAt_entries (n : ℕ) (d : ℕ → ℕ → ℚ) (i j : ℕ) (hij : i < j) (hj : j < n) :
    squareAt n (condensedOf n d) i j = d i j ∧
    squareAt n (condensedOf n d) j i = d i j ∧
    squareAt n (condensedOf n d) i i = 0 := by
  unfold squareAt
  refine ⟨?_, ?_, by simp⟩
  · rw [if_neg (by omega), if_pos hij]
    exact condensedOf_getD i d n j hij hj
  · rw [if_neg (by omega), if_neg (by omega)]
    exact condensedOf_getD i d n j hij hj

theorem foldl_max_spec (xs : List ℚ) :
    ∀ a : ℚ, (xs.foldl max a ∈ a :: xs) ∧ a ≤ xs.foldl max a ∧
      ∀ x ∈ xs, x ≤ xs.foldl max a := by
  induction xs with
  | nil => intro a; exact ⟨List.mem_cons_self a [], le_refl a, by simp⟩
  | cons b xs ih =>
      intro a
      obtain ⟨hmem, hle, hbound⟩ := ih (max a b)
      refine ⟨?_, ?_, ?_⟩
      · rw [List.foldl_cons]
        rcases List.mem_cons.mp hmem with h | h
        · rcases max_choice a b with hc | hc <;> rw [h, hc]
          · exact List.mem_cons_self a (b :: xs)
          · exact List.mem_cons_of_mem a (List.mem_cons_self b xs)
        · exact List.mem_cons_of_mem a (List.mem_cons_of_mem b h)
      · rw [List.foldl_cons]
        exact le_trans (le_max_left a b) hle
      · intro x hx
        rw [List.foldl_cons]
        rcases List.mem_cons.mp hx with h | h
        · rw [h]
          exact le_trans (le_max_right a b) hle
        · exact hbound x h

theorem pyMaxQ_spec (l : List ℚ) (h : l ≠ []) :
    pyMaxQ l ∈ l ∧ ∀ x ∈ l, x ≤ pyMaxQ l := by
  cases l with
  | nil => exact absurd rfl h
  | cons x xs =>
      obtain ⟨hmem, hle, hbound⟩ := foldl_max_spec xs x
      refine ⟨hmem, ?_⟩
      intro y hy
      rcases List.mem_cons.mp hy with hyx | hyx
      · rw [hyx]; exact hle
      · exact hbound y hyx

/-- C4: the sample labels are the fcluster cut of the average linkage of
the squareform correlation-distance structure at 0.7 times the largest
merge distance; the matrix handed to linkage holds, at every off-diagonal
pair, 1 minus the Pearson correlation of the two normalized top-N sample
vectors (in both orientations), with a zero diagonal, and the threshold
factor multiplies the maximum of the linkage distance column. The scipy
kernels (argsort, square root, Pearson correlation, linkage, fcluster)
are abstract collaborators. -/
theorem claim4_cluster_labels (argsortFn : List ℚ → List ℕ) (sqrtFn : ℚ → ℚ)
    (pearsonFn : List ℚ → List ℚ → ℚ) (linkageFn : (ℕ → ℕ → ℚ) → ℕ → List LinkRow)
    (fclusterFn : List LinkRow → ℚ → List ℕ) (G : ℕ → ℕ → ℚ) (n p N : ℕ) :
    riskClusterLabels argsortFn sqrtFn pearsonFn linkageFn fclusterFn G n p N =
      fclusterFn (linkageFn (sampleSquare argsortFn sqrtFn pearsonFn G n p N) n)
        ((7 / 10 : ℚ) *
          pyMaxQ ((linkageFn (sampleSquare argsortFn sqrtFn pearsonFn G n p N) n).map
            LinkRow.dist)) ∧
    (∀ i j, i < j → j < n →
      sampleSquare argsortFn sqrtFn pearsonFn G n p N i j =
        1 - pearsonFn
          (sampleRowN (zscored sqrtFn G (topCols argsortFn G n p N) n) N i)
          (sampleRowN (zscored sqrtFn G (topCols argsortFn G n p N) n) N j) ∧
      sampleSquare argsortFn sqrtFn pearsonFn G n p N j i =
        1 - pearsonFn
          (sampleRowN (zscored sqrtFn G (topCols argsortFn G n p N) n) N i)
          (sampleRowN (zscored sqrtFn G (topCols argsortFn G n p N) n) N j)) ∧
    (∀ i, sampleSquare argsortFn sqrtFn pearsonFn G n p N i i = 0) ∧
    (linkageFn (sampleSquare argsortFn sqrtFn pearsonFn G n p N) n ≠ [] →
      pyMaxQ ((linkageFn (sampleSquare argsortFn sqrtFn pearsonFn G n p N) n).map
          LinkRow.dist) ∈
        (linkageFn (sampleSquare argsortFn sqrtFn pearsonFn G n p N) n).map LinkRow.dist ∧
      ∀ x ∈ (linkageFn (sampleSquare argsortFn sqrtFn pearsonFn G n p N) n).map
          LinkRow.dist,
        x ≤ pyMaxQ ((linkageFn (sampleSquare argsortFn sqrtFn pearsonFn G n p N) n).map
          LinkRow.dist)) := by
  refine ⟨rfl, ?_, ?_, ?_⟩
  · intro i j hij hj
    have h := squareAt_entries n
      (corrD pearsonFn (zscored sqrtFn G (topCols argsortFn G n p N) n) N) i j hij hj
    exact ⟨h.1, h.2.1⟩
  · intro i
    unfold sampleSquare squareAt
    simp
  · intro hne
    exact pyMaxQ_spec _ (by simpa using hne)

/-- C4 witness: the off-diagonal and diagonal entries evaluated on a
two-sample instance with constant collaborators. -/
theorem claim4_cluster_labels_witness :
    sampleSquare (fun _ => [0]) (fun q => q) (fun _ _ => 0) (fun _ _ => 0) 2 1 1 0 1 =
      1 - (0 : ℚ) ∧
    sampleSquare (fun _ => [0]) (fun q => q) (fun _ _ => 0) (fun _ _ => 0) 2 1 1 0 0 = 0 := by
  have h := claim4_cluster_labels (fun _ => [0]) (fun q => q) (fun _ _ => 0)
    (fun _ _ => [])
    (fun _ _ => [1, 1]) (fun _ _ => 0) 2 1 1
  exact ⟨(h.2.1 0 1 (by norm_num) (by norm_num)).1, h.2.2.1 0⟩

end SNet
